import Mathlib

/-!
Verification of the token-stream / expression-tree core of
`dsr/task/regression/gp_regression.py`: the token-sequence codec
(`DEAP_to_tokens` / `tokens_to_DEAP`), the structural validators
(`check_inv`, `check_trig`, `checkConstraint`), the prior-mask generator
(`generate_priors`) and the constant-optimization objective (`obj`).

Python integers are modelled as `Nat`/`Int`; the float constants carried by
constant-placeholder tree nodes are modelled as `ℚ` (they are only stored and
compared, never computed with); the `-np.inf` entries of the prior matrix are
modelled as `Bool` (`true` = the entry is `-inf`, i.e. the token is masked;
the matrix only ever holds `0` or `-inf`).

Definitions carrying a doc comment starting with `Modelled from the spec:`
embed parts of the repository that are not under `src/` (the `dsr.functions`
token-category lists, the `dsr.program` library and `_finish_tokens`); they
follow the specification's words.
-/

/-- `TRIG_TOKENS` of gp_regression.py (line 31): names of the trigonometric
operators. -/
def TRIG_TOKENS : List String := ["sin", "cos", "tan", "csc", "sec", "cot"]

/-- Modelled from the spec: `BINARY_TOKENS` is imported from `dsr.functions`,
which is not under `src/`.  Per the spec these are the names of the arity-2
operator tokens of the function library. -/
def BINARY_TOKENS : List String := ["add", "sub", "mul", "div"]

/-- Modelled from the spec: `UNARY_TOKENS` is imported from `dsr.functions`,
which is not under `src/`.  Per the spec these are the names of the arity-1
operator tokens of the function library (trig and inverse-trig functions,
exp/log, sqrt and its inverse n2, neg, inv, abs, tanh). -/
def UNARY_TOKENS : List String :=
  ["sin", "cos", "tan", "csc", "sec", "cot",
   "arcsin", "arccos", "arctan", "arccsc", "arcsec", "arccot",
   "exp", "log", "sqrt", "n2", "neg", "inv", "abs", "tanh"]

/-- Python `dict` first-match-free lookup: `d[k]` / `k in d` (keys in our
dicts are unique, so first match = the binding). -/
def dictGet : List (String × String) → String → Option String
  | [], _ => none
  | p :: rest, k => if p.1 = k then some p.2 else dictGet rest k

/-- Python `dict` item assignment `d[k] = v`: replaces the value of an
existing key in place, otherwise appends the binding. -/
def dictInsert (d : List (String × String)) (kv : String × String) :
    List (String × String) :=
  if d.any (fun p => p.1 = kv.1) then
    d.map (fun p => if p.1 = kv.1 then (p.1, kv.2) else p)
  else d ++ [kv]

/-- Python `dict.update`: insert the new bindings left to right. -/
def dictUpdate (d new : List (String × String)) : List (String × String) :=
  new.foldl dictInsert d

/-- `INVERSE_TOKENS` of gp_regression.py (lines 35-52): the base pairs, then
the trig/arc-trig pairs added by `update`, then the reversed copy of every
binding added by `update`. -/
def INVERSE_TOKENS : List (String × String) :=
  let base := [("exp", "log"), ("neg", "neg"), ("inv", "inv"), ("sqrt", "n2")]
  let withTrig := dictUpdate base (TRIG_TOKENS.map (fun t => (t, "arc" ++ t)))
  dictUpdate withTrig (withTrig.map (fun p => (p.2, p.1)))

/-- `check_inv` of gp_regression.py (lines 67-73): scans consecutive name
pairs; `True` when a token is immediately followed by its registered
structural inverse (`name in INVERSE_TOKENS and names[i+1] ==
INVERSE_TOKENS[name]`). -/
def check_inv : List String → Bool
  | [] => false
  | [_] => false
  | a :: b :: rest =>
    match dictGet INVERSE_TOKENS a with
    | some u => if b = u then true else check_inv (b :: rest)
    | none => check_inv (b :: rest)

/-- The running-balance contribution of one name in `check_trig`
(lines 89-92): binary tokens add a dangling slot, tokens that are neither
binary nor unary (terminals) consume one, unary tokens leave it unchanged. -/
def trigDelta (nm : String) : Int :=
  if nm ∈ BINARY_TOKENS then 1 else if nm ∉ UNARY_TOKENS then -1 else 0

/-- Loop of `check_trig` (lines 82-94): `desc` is `trig_descendant`, `td` is
`trig_dangling`. -/
def check_trig_go : List String → Bool → Int → Bool
  | [], _, _ => false
  | nm :: rest, desc, td =>
    if nm ∈ TRIG_TOKENS then
      if desc then true
      else check_trig_go rest true 1
    else
      if desc then
        let td' := td + trigDelta nm
        if td' = 0 then check_trig_go rest false td'
        else check_trig_go rest true td'
      else check_trig_go rest desc td

/-- `check_trig` of gp_regression.py (lines 76-96): `True` when a descendant
of a trig operator is another trig operator.  `trig_descendant` starts
`False`; `trig_dangling` is unset before the first trig token (it is never
read there, so it is initialized to `0` here). -/
def check_trig (names : List String) : Bool := check_trig_go names false 0

/-- First index of a name in a name list (`list.index(name)` in Python /
the position of a token in the library), `none` when absent. -/
def nameIndex : List String → String → Option Nat
  | [], _ => none
  | x :: rest, nm =>
    if x = nm then some 0 else (nameIndex rest nm).map (· + 1)

/-- Modelled from the spec: the `dsr.program.Program.library` object
(`dsr/program.py` and `dsr/library.py` are not under `src/`).  Per the spec a
Library is an ordered collection of tokens (insertion order = index order,
names unique) with an arity per token; the derived index sets
(terminal/unary/binary/trig) and the inverse-pair index map are computed from
the per-token data and must stay consistent with the name-level category
lists. -/
structure Lib where
  libNames : List String
  libArities : List Nat
deriving DecidableEq

/-- Name of token index `t` (out-of-range indices have no name). -/
def Lib.nameOf (lib : Lib) (t : Nat) : String := lib.libNames.getD t ""

/-- Arity of token index `t`. -/
def Lib.arity (lib : Lib) (t : Nat) : Nat := lib.libArities.getD t 0

/-- Membership of index `t` in the library's derived trig-token set. -/
def Lib.isTrig (lib : Lib) (t : Nat) : Bool := lib.nameOf t ∈ TRIG_TOKENS

/-- The library's derived inverse-pair index map: the index of the token
whose name is the registered structural inverse of token `t`'s name, when
both are registered. -/
def Lib.invIdx (lib : Lib) (t : Nat) : Option Nat :=
  match dictGet INVERSE_TOKENS (lib.nameOf t) with
  | some u => nameIndex lib.libNames u
  | none => none

/-- The trig-ancestry state update of one iteration of the `generate_priors`
loop (gp_regression.py lines 337-347): on a trig token start (or restart)
tracking with `trig_dangling = 1`; while a descendant, binary tokens add a
dangling slot, non-unary non-binary tokens consume one, and the descendant
state ends when the count returns to 0.  Returns
(`trig_descendant`, `trig_dangling`). -/
def trigStep (lib : Lib) (t : Nat) (desc : Bool) (td : Int) : Bool × Int :=
  if lib.isTrig t then (true, 1)
  else if desc then
    let td' := if lib.arity t = 2 then td + 1
               else if lib.arity t ≠ 1 then td - 1 else td
    if td' = 0 then (false, td') else (true, td')
  else (desc, td)

/-- The mask row written at position `i + 1` by iteration `i` of the
`generate_priors` loop (lines 349-381), as a predicate on token indices:
`true` iff the entry is set to `-inf`.  `desc'` and `dang` are the values of
`trig_descendant` and `dangling` after the updates of iteration `i`; `t` is
`tokens[i]`.  The four rules are: trig tokens while beneath an unresolved
trig; the registered inverse of `t`; terminal tokens while the sequence is
still too short to close (`(i+2) < min_len and dangling == 1`); and the
late-length rule (`(i+2) >= max_len // 2`: binary tokens when
`dangling >= remaining - 1`, else unary tokens when
`dangling == remaining`, with `remaining = max_len - (i+1)`). -/
def rowMask (lib : Lib) (maxLen minLen i t : Nat) (desc' : Bool) (dang : Int) :
    Nat → Bool :=
  fun k =>
    (desc' && lib.isTrig k)
    || (lib.invIdx t == some k)
    || (decide (i + 2 < minLen) && (dang == 1) && decide (lib.arity k = 0))
    || (decide (maxLen / 2 ≤ i + 2) &&
          (let remaining : Int := (maxLen : Int) - ((i : Int) + 1)
           if remaining - 1 ≤ dang then decide (lib.arity k = 2)
           else (dang == remaining) && decide (lib.arity k = 1)))

/-- The rows written by the `generate_priors` loop (lines 322-381), in
order: iteration `i` (token `t`) first updates `dangling` by `arity(t) - 1`,
then, only while `i < len(tokens) - 1`, updates the trig state and writes
the row at position `i + 1`.  `n` is `len(tokens)`; the result lists the
rows for positions `i+1, i+2, ...`. -/
def gpRows (lib : Lib) (maxLen minLen n : Nat) :
    List Nat → Nat → Bool → Int → Int → List (Nat → Bool)
  | [], _, _, _, _ => []
  | t :: rest, i, desc, td, dang =>
    let dang' := dang + (lib.arity t : Int) - 1
    if i < n - 1 then
      let s := trigStep lib t desc td
      rowMask lib maxLen minLen i t s.1 dang' ::
        gpRows lib maxLen minLen n rest (i + 1) s.1 s.2 dang'
    else
      gpRows lib maxLen minLen n rest (i + 1) desc td dang'

/-- `generate_priors` of gp_regression.py (lines 310-383), as the masked-entry
predicate of the produced matrix: `generate_priors lib tokens maxLen minLen
j k = true` iff `priors[j, k] = -inf`.  Row 0 masks exactly the terminal
tokens (line 320); rows `1 .. len(tokens) - 1` are written by the loop;
all later rows stay zero.  (The unused `expr_length` and `max_const`
arguments of the Python signature are omitted; `max_exp_length` only sizes
the matrix.) -/
def generate_priors (lib : Lib) (tokens : List Nat) (maxLen minLen : Nat) :
    Nat → Nat → Bool :=
  fun j k =>
    if j = 0 then decide (lib.arity k = 0)
    else
      match (gpRows lib maxLen minLen tokens.length tokens 0 false 0 1).get?
          (j - 1) with
      | some row => row k
      | none => false

/-- A concrete library used for witnesses and counterexamples: input
variable, the binary operators add/mul, the unary operators
exp/log/sin/cos/neg, and the constant placeholder. -/
def stdLib : Lib :=
  { libNames := ["x1", "add", "mul", "exp", "log", "sin", "cos", "neg", "const"],
    libArities := [0, 2, 2, 1, 1, 1, 1, 1, 0] }

/-- Modelled from the spec: the entries of `Program.library` as indexed by
`tokens_to_DEAP` (lines 246-297; `dsr/program.py` is not under `src/`).
Indexing the library with a token returns an `int` for an input-variable
token (the variable's number), a `str` for the mutable constant placeholder,
a `float` for a fixed user constant, and a named function token otherwise.
Input variable `n` sits at library index `n` (`DEAP_to_tokens` stores the
variable number itself as the token, line 187). -/
inductive LibEntry where
  | inputVar (n : Nat)
  | constPh
  | fixedConst (v : ℚ)
  | fn (fname : String) (arity : Nat)
deriving DecidableEq

/-- Arity of a library entry (`Program.library.arities[t]`). -/
def entryArity : LibEntry → Nat
  | .inputVar _ => 0
  | .constPh => 0
  | .fixedConst _ => 0
  | .fn _ a => a

/-- Name of a library entry (`Program.library.names`). -/
def entryName : LibEntry → String
  | .inputVar n => "x" ++ toString (n + 1)
  | .constPh => "const"
  | .fixedConst _ => "const"
  | .fn nm _ => nm

/-- A node of a DEAP `PrimitiveTree`, listed in pre-order: a `Terminal`
(name plus the float value it carries; input-variable terminals are named
`ARG{n}` and carry no numeric value, modelled as `0`) or a `Primitive`
(name and arity). -/
inductive DNode where
  | term (nm : String) (value : ℚ)
  | prim (nm : String) (arity : Nat)
deriving DecidableEq

/-- The `np.int32` cast of a float constant (`tokens[i] = t.value`,
line 182): truncation toward zero, clamped at 0 since tokens are used as
library indices. -/
def ratTrunc (v : ℚ) : Nat := (v.num.tdiv v.den).toNat

/-- Python `int(...)` on a digit string given as a character list (`none`
when the characters are not all digits, where Python raises `ValueError`). -/
def parseNatChars (cs : List Char) : Option Nat :=
  if cs ≠ [] ∧ cs.all (fun c => c.isDigit) then
    some (cs.foldl (fun a c => a * 10 + (c.toNat - 48)) 0)
  else none

/-- The token stored for one DEAP node by `DEAP_to_tokens` (lines 177-190):
a `user_const` terminal stores its (cast) value, a `mutable_const` terminal
stores the library's const token, any other terminal `ARG{n}` stores `n`,
and a primitive stores the index of its name in the library's name list. -/
def tokenOfNode (lib : List LibEntry) (nd : DNode) : Nat :=
  match nd with
  | .term nm v =>
    if nm = "user_const" then ratTrunc v
    else if nm = "mutable_const" then
      (lib.findIdx fun e => e matches .constPh)
    else (parseNatChars (nm.data.drop 3)).getD 0
  | .prim nm _ => (nameIndex (lib.map entryName) nm).getD lib.length

/-- Running arity balance `dangling = 1 + np.cumsum(arities - 1)`
(line 193): entry `j` is the balance after consuming tokens `0 .. j`. -/
def danglingList (arities : List Nat) : List Int :=
  ((arities.map (fun a => (a : Int) - 1)).scanl (· + ·) 1).tail

/-- Index of the first `true` in a boolean list, if any. -/
def firstTrue : List Bool → Option Nat
  | [] => none
  | b :: rest => if b then some 0 else (firstTrue rest).map (· + 1)

/-- `np.argmax` on a boolean vector: the index of the first `True`, and `0`
when no entry is `True` (first occurrence of the maximum). -/
def np_argmax (l : List Bool) : Nat := (firstTrue l).getD 0

/-- The running arity balance of a token sequence over a library:
`dangling = 1 + np.cumsum(arities - 1)` with
`arities = [Program.library.arities[t] for t in tokens]` (lines 192-193). -/
def tokensDangling (lib : List LibEntry) (tokens : List Nat) : List Int :=
  danglingList (tokens.map fun t => entryArity (lib.getD t (.inputVar 0)))

/-- `DEAP_to_tokens` of gp_regression.py (lines 166-196): writes the first
`min(len(individual), tokens_size)` node tokens into a zero-initialized
array of length `tokens_size`, then returns the array together with
`expr_length = 1 + np.argmax(dangling == 0)` where `dangling` is the
running arity balance of the whole array. -/
def DEAP_to_tokens (lib : List LibEntry) (individual : List DNode)
    (tokens_size : Nat) : List Nat × Nat :=
  let l := min individual.length tokens_size
  let tokens := (List.range tokens_size).map fun i =>
    if i < l then tokenOfNode lib (individual.getD i (.term "" 0)) else 0
  (tokens, 1 + np_argmax ((tokensDangling lib tokens).map (fun d => d == 0)))

/-- Modelled from the spec: `_finish_tokens` from `dsr.program`
(`dsr/program.py` is not under `src/`), the codec's `complete` operation.
Per the spec it computes the arity balance left to right and truncates the
sequence at the position where the balance first reaches 0; if the balance
never reaches 0 it forcibly closes the sequence by appending one default
terminal token (the first declared input variable, library index 0) per
remaining dangling slot. -/
def finish_tokens (lib : List LibEntry) (tokens : List Nat) : List Nat :=
  let d := tokensDangling lib tokens
  match firstTrue (d.map (fun x => x == 0)) with
  | some j => tokens.take (j + 1)
  | none => tokens ++ List.replicate (d.getLastD 1).toNat 0

/-- `tokens_to_DEAP` of gp_regression.py (lines 199-306): completes the
token sequence with `_finish_tokens`, then maps each token through the
library.  A `float` entry becomes the `user_const` terminal carrying that
value; a `str` entry becomes the `mutable_const` terminal whose value is set
to `1.0` (the original value, `#node`, is commented out at line 271); an
`int` entry `n` becomes the input-variable terminal `pset.mapping["x{n+1}"]`
(whose DEAP name is `ARG{n}`); a function entry becomes the primitive of the
same name. -/
def tokens_to_DEAP (lib : List LibEntry) (tokens : List Nat) : List DNode :=
  (finish_tokens lib tokens).map fun t =>
    match lib.getD t (.inputVar 0) with
    | .fixedConst v => .term "user_const" v
    | .constPh => .term "mutable_const" 1
    | .inputVar n => .term ("ARG" ++ toString n) 0
    | .fn nm a => .prim nm a

/-- Library used for the codec claims: input variable x1 at index 0 (as
`DEAP_to_tokens`'s `ARG{n} -> n` encoding requires), the binary `add`, and
the mutable-constant placeholder. -/
def codecLib : List LibEntry := [.inputVar 0, .fn "add" 2, .constPh]

/-- `GenericEvaluate._set_const_individuals` (gp_regression.py lines
426-432): writes each constant of `consts` into the tree position given by
the matching entry of `const_idxs`, as a `mutable_const` terminal. -/
def set_const_individuals (const_idxs : List Nat) (consts : List ℚ)
    (individual : List DNode) : List DNode :=
  (const_idxs.zip consts).foldl
    (fun ind p => ind.set p.1 (.term "mutable_const" p.2)) individual

/-- `np.finfo(np.float).max`, the sentinel returned by `obj` on evaluation
failure (lines 461 and 470). -/
def FLOAT_MAX : ℚ := 17976931348623157 * 10 ^ 292

/-- Outcome of calling a Python function: a returned value, or a raised
exception (by exception-class name). -/
inductive PyOutcome (α : Type) where
  | ok (v : α)
  | raised (exc : String)
deriving DecidableEq

/-- The local-variable slot `individual` of `obj` at function entry.  The
statement `individual = self._set_const_individuals(self, const_idxs,
consts, individual)` (line 451) makes `individual` a local variable of
`obj` (it is assigned in the function body and not declared `nonlocal`), so
at entry the slot exists but is unbound. -/
def objLocalIndividual : Option (List DNode) := none

/-- `obj` of gp_regression.py (lines 450-470), the objective handed to the
constant optimizer.  Evaluating the right-hand side of its first statement
reads the local `individual` before any assignment to it, which raises
`UnboundLocalError`; the rest of the body (compile the tree, evaluate it
inside `try/except` returning `np.finfo(np.float).max` on failure, return
the mean squared error or the sentinel when it is not finite) is never
reached and is abstracted as `rest`.  (Were `individual` bound, the call
would still raise a `TypeError`: it passes `self` explicitly to the bound
method, five positional arguments for a four-parameter function.) -/
def obj (rest : List ℚ → PyOutcome ℚ) (consts : List ℚ) : PyOutcome ℚ :=
  match objLocalIndividual with
  | none => .raised "UnboundLocalError"
  | some _ => rest consts

/-- A DEAP individual as seen by the `checkConstraint` wrapper: its node
name sequence (`[node.name for node in ind]`, whose length is `len(ind)`)
and its `height` attribute. -/
structure Ind where
  nodeNames : List String
  height : Nat
deriving DecidableEq

/-- `checkConstraint` of gp_regression.py (lines 100-135): the decorator's
wrapper around a mutate/mate operator `func`.  It deep-copies the input
individuals (`keep_inds`) before calling `func`, then replaces every
returned individual that is too long, too short, too deep, or fails
`check_inv` or `check_trig` by `random.choice(keep_inds)`.  The random
choice is modelled by `pick`: `pick i keep` stands for the draw made when
replacing the result at index `i`. -/
def checkConstraint (max_length min_length max_depth : Nat)
    (func : List Ind → List Ind) (pick : Nat → List Ind → Ind)
    (args : List Ind) : List Ind :=
  let keep_inds := args
  let new_inds := func args
  new_inds.enum.map fun p =>
    let l := p.2.nodeNames.length
    if max_length < l then pick p.1 keep_inds
    else if l < min_length then pick p.1 keep_inds
    else if max_depth < p.2.height then pick p.1 keep_inds
    else if check_inv p.2.nodeNames then pick p.1 keep_inds
    else if check_trig p.2.nodeNames then pick p.1 keep_inds
    else p.2

/-- A well-formed DEAP tree `add(mutable_const = 3.0, x1)`: arity-balanced
(balance 2, 1, 0) and within a token budget of 5. -/
def c1Tree : List DNode :=
  [.prim "add" 2, .term "mutable_const" 3, .term "ARG0" 0]

/-- Concrete input individuals for the `checkConstraint` witness. -/
def c8Args : List Ind := [⟨["x1"], 0⟩]

/-- Concrete wrapped operator for the `checkConstraint` witness: returns an
individual failing the inverse-adjacency check. -/
def c8Func : List Ind → List Ind := fun _ => [⟨["exp", "log"], 1⟩]

/-- Concrete `random.choice` draw for the `checkConstraint` witness. -/
def c8Pick : Nat → List Ind → Ind := fun _ keep => keep.getD 0 ⟨["x1"], 0⟩

/-- Sum of the arity-balance contributions of a name list. -/
def sumDelta (l : List String) : Int := (l.map trigDelta).sum

/-- The local arity balance of the subtree rooted at the token at position
`i`, just before consuming the token at position `k` (for `i < k`): one
dangling slot for the root's operand plus the contributions of the tokens
strictly between `i` and `k`. -/
def trigBal (names : List String) (i k : Nat) : Int :=
  1 + sumDelta ((names.drop (i + 1)).take (k - (i + 1)))

/-- The subtree opened by the token at position `i` is still open at every
position after `i` up to and including `j` (its local arity balance has not
returned to zero). -/
def trigOpenUpTo (names : List String) (i j : Nat) : Prop :=
  ∀ k, i < k → k ≤ j → 0 < trigBal names i k

/-- Position `i` of the name sequence holds a trig token. -/
def isTrigAt (names : List String) (i : Nat) : Prop :=
  ∃ a, names.get? i = some a ∧ a ∈ TRIG_TOKENS

/-- The specification's nested-trig violation: some trig token occurs while
the subtree of an earlier trig token is still open. -/
def specNestedTrig (names : List String) : Prop :=
  ∃ i j, i < j ∧ isTrigAt names i ∧ isTrigAt names j ∧ trigOpenUpTo names i j

/-- Scanning `l` with an open trig subtree whose current balance is `td`, a
trig token is reached while the balance stays positive throughout. -/
def OpenHits (l : List String) (td : Int) : Prop :=
  ∃ j a, l.get? j = some a ∧ a ∈ TRIG_TOKENS ∧
    ∀ k, k ≤ j → 0 < td + sumDelta (l.take k)

/-! ## Helper lemmas -/

/-- A successful Python dict lookup comes from a binding of the dict. -/
theorem dictGet_mem : ∀ {l : List (String × String)} {k v : String},
    dictGet l k = some v → (k, v) ∈ l := by
  intro l
  induction l with
  | nil => intro k v h; simp [dictGet] at h
  | cons p rest ih =>
    intro k v h
    by_cases hp : p.1 = k
    · rw [dictGet, if_pos hp] at h
      cases h
      exact hp ▸ List.mem_cons_self _ _
    · rw [dictGet, if_neg hp] at h
      exact List.mem_cons_of_mem _ (ih h)

/-- Every binding of `INVERSE_TOKENS` has its reversed binding registered. -/
theorem inverse_tokens_sym_all :
    ∀ p ∈ INVERSE_TOKENS, dictGet INVERSE_TOKENS p.2 = some p.1 := by decide

/-- `check_inv` is `True` exactly when some position holds a token with a
registered inverse and the next position holds exactly that inverse. -/
theorem check_inv_iff (names : List String) :
    check_inv names = true ↔
      ∃ i a b, names.get? i = some a ∧ names.get? (i + 1) = some b ∧
        dictGet INVERSE_TOKENS a = some b := by
  induction names with
  | nil =>
    simp only [check_inv]
    constructor
    · intro h; exact absurd h (by simp)
    · rintro ⟨i, a, b, ha, _, _⟩; simp at ha
  | cons a rest ih =>
    cases rest with
    | nil =>
      simp only [check_inv]
      constructor
      · intro h; exact absurd h (by simp)
      · rintro ⟨i, x, y, hx, hy, _⟩
        cases i with
        | zero => simp at hy
        | succ n => simp at hx
    | cons b rest2 =>
      constructor
      · intro h
        rw [check_inv] at h
        cases hda : dictGet INVERSE_TOKENS a with
        | some u =>
          rw [hda] at h
          replace h : (if b = u then true else check_inv (b :: rest2)) = true := h
          by_cases hbu : b = u
          · exact ⟨0, a, b, rfl, rfl, by rw [hda, hbu]⟩
          · rw [if_neg hbu] at h
            obtain ⟨i, x, y, hx, hy, hxy⟩ := ih.mp h
            exact ⟨i + 1, x, y, hx, hy, hxy⟩
        | none =>
          rw [hda] at h
          replace h : check_inv (b :: rest2) = true := h
          obtain ⟨i, x, y, hx, hy, hxy⟩ := ih.mp h
          exact ⟨i + 1, x, y, hx, hy, hxy⟩
      · rintro ⟨i, x, y, hx, hy, hxy⟩
        rw [check_inv]
        cases i with
        | zero =>
          cases hx
          cases hy
          rw [hxy]
          show (if b = b then true else check_inv (b :: rest2)) = true
          rw [if_pos rfl]
        | succ n =>
          have htail : check_inv (b :: rest2) = true :=
            ih.mpr ⟨n, x, y, hx, hy, hxy⟩
          cases hda : dictGet INVERSE_TOKENS a with
          | some u =>
            show (if b = u then true else check_inv (b :: rest2)) = true
            by_cases hbu : b = u
            · rw [if_pos hbu]
            · rw [if_neg hbu]; exact htail
          | none => exact htail

/-- `firstTrue` returns the index of a `true` entry before which every entry
is `false`. -/
theorem firstTrue_spec : ∀ {l : List Bool} {i : Nat}, firstTrue l = some i →
    l.get? i = some true ∧ ∀ k < i, l.get? k = some false := by
  intro l
  induction l with
  | nil => intro i h; simp [firstTrue] at h
  | cons b rest ih =>
    intro i h
    by_cases hb : b = true
    · rw [firstTrue, if_pos hb] at h
      cases h
      exact ⟨by simp [hb], by omega⟩
    · rw [firstTrue, if_neg hb] at h
      cases hft : firstTrue rest with
      | none => rw [hft] at h; simp at h
      | some j =>
        rw [hft] at h
        simp only [Option.map_some'] at h
        cases h
        obtain ⟨h1, h2⟩ := ih hft
        refine ⟨by simpa using h1, ?_⟩
        intro k hk
        cases k with
        | zero => simp [Bool.eq_false_iff.mpr hb]
        | succ m => simpa using h2 m (by omega)

/-- If some entry is `true`, `firstTrue` finds an index. -/
theorem firstTrue_isSome : ∀ {l : List Bool} {j : Nat},
    l.get? j = some true → ∃ i, firstTrue l = some i := by
  intro l
  induction l with
  | nil => intro j h; simp at h
  | cons b rest ih =>
    intro j h
    by_cases hb : b = true
    · exact ⟨0, by rw [firstTrue, if_pos hb]⟩
    · cases j with
      | zero => simp at h; exact absurd h hb
      | succ m =>
        obtain ⟨i, hi⟩ := ih (by simpa using h)
        exact ⟨i + 1, by rw [firstTrue, if_neg hb, hi]; rfl⟩

/-! ## Claim theorems -/

/-- C1: for the well-formed tree `add(mutable_const = 3.0, x1)` (within the
token budget 5), `tokens_to_DEAP` after `DEAP_to_tokens` returns a tree
whose mutable constant holds `1.0` instead of `5/2`: the round trip is not
structurally equal including constant-placeholder values (the code resets
every mutable constant to `1.0` and comments "this will not store the
actual const (TO DO, fix somehow)"). -/
theorem c1_roundtrip_drops_mutable_const_value :
    tokensDangling codecLib (DEAP_to_tokens codecLib c1Tree 5).1
      = [2, 1, 0, -1, -2]
    ∧ c1Tree.length ≤ 5
    ∧ tokens_to_DEAP codecLib (DEAP_to_tokens codecLib c1Tree 5).1
      = [DNode.prim "add" 2, DNode.term "mutable_const" 1, DNode.term "ARG0" 0]
    ∧ tokens_to_DEAP codecLib (DEAP_to_tokens codecLib c1Tree 5).1 ≠ c1Tree := by
  decide

/-- C2: `obj` never returns at all — every call raises (the first statement
reads the unbound local `individual`), so it neither returns the sentinel
`np.finfo(np.float).max` nor any other value to the external optimizer. -/
theorem c2_objective_always_raises (rest : List ℚ → PyOutcome ℚ)
    (consts : List ℚ) :
    obj rest consts = .raised "UnboundLocalError"
    ∧ ∀ q : ℚ, obj rest consts ≠ .ok q := by
  refine ⟨rfl, ?_⟩
  intro q h
  simp [obj, objLocalIndividual] at h

/-- C4: whenever the running arity balance of the token array produced by
`DEAP_to_tokens` reaches 0 somewhere, the returned `expr_length` is `j + 1`
for the first (1-indexed: position `j + 1`) index `j` at which the balance
is 0 — trailing padding of the fixed-size array notwithstanding. -/
theorem c4_expr_length_first_balance_zero (lib : List LibEntry)
    (individual : List DNode) (tokens_size : Nat)
    (h : ∃ j, (tokensDangling lib
        (DEAP_to_tokens lib individual tokens_size).1).get? j = some 0) :
    ∃ j, (tokensDangling lib
        (DEAP_to_tokens lib individual tokens_size).1).get? j = some 0
      ∧ (∀ k < j, (tokensDangling lib
          (DEAP_to_tokens lib individual tokens_size).1).get? k ≠ some 0)
      ∧ (DEAP_to_tokens lib individual tokens_size).2 = j + 1 := by
  obtain ⟨j, hj⟩ := h
  set d := tokensDangling lib (DEAP_to_tokens lib individual tokens_size).1
    with hd
  have hbj : (d.map (fun x => x == 0)).get? j = some true := by
    rw [List.get?_map, hj]; rfl
  obtain ⟨i, hi⟩ := firstTrue_isSome hbj
  obtain ⟨h1, h2⟩ := firstTrue_spec hi
  rw [List.get?_map] at h1
  obtain ⟨x, hx, hxe⟩ := Option.map_eq_some'.mp h1
  have hx0 : x = 0 := by simpa using hxe
  refine ⟨i, hx0 ▸ hx, ?_, ?_⟩
  · intro k hk hk0
    have := h2 k hk
    rw [List.get?_map, hk0] at this
    simp at this
  · have hrfl : (DEAP_to_tokens lib individual tokens_size).2
        = 1 + np_argmax ((tokensDangling lib
            (DEAP_to_tokens lib individual tokens_size).1).map
              (fun x => x == 0)) := rfl
    rw [hrfl, ← hd, np_argmax, hi]
    simp [Nat.add_comm]

/-- C4 witness: for the tree `add(x1, x1)` over `codecLib` with a token
budget of 5 the balance reaches 0 and `expr_length` is its first-zero
position, 1-indexed. -/
theorem c4_witness :
    ∃ j, (tokensDangling codecLib (DEAP_to_tokens codecLib
        [.prim "add" 2, .term "ARG0" 0, .term "ARG0" 0] 5).1).get? j = some 0
      ∧ (∀ k < j, (tokensDangling codecLib (DEAP_to_tokens codecLib
          [.prim "add" 2, .term "ARG0" 0, .term "ARG0" 0] 5).1).get? k
            ≠ some 0)
      ∧ (DEAP_to_tokens codecLib
          [.prim "add" 2, .term "ARG0" 0, .term "ARG0" 0] 5).2 = j + 1 :=
  c4_expr_length_first_balance_zero codecLib
    [.prim "add" 2, .term "ARG0" 0, .term "ARG0" 0] 5 ⟨2, by decide⟩

/-- C5: running `generate_priors` over `stdLib` on `[add, add, add, x1]`
with `max_len = 7`, iteration `i = 2` has `(i+2) ≥ max_len // 2` and
`dangling = 4` exactly equal to `remaining = max_len - (i+1) = 4` — the
claimed unary-mask condition — yet the unary token `exp` (index 3) is NOT
masked at position 3, while the binary token `add` (index 1) is: the
`elif dangling == remaining` branch is unreachable because
`dangling == remaining` already satisfies `dangling >= remaining - 1`. -/
theorem c5_unary_late_mask_never_fires :
    (danglingList ([1, 1, 1].map stdLib.arity)).getLastD 1 = (7 : Int) - 3
    ∧ 7 / 2 ≤ (2 : Nat) + 2
    ∧ stdLib.arity 3 = 1
    ∧ stdLib.arity 1 = 2
    ∧ generate_priors stdLib [1, 1, 1, 0] 7 1 3 3 = false
    ∧ generate_priors stdLib [1, 1, 1, 0] 7 1 3 1 = true := by
  decide

/-- C7: `check_inv` returns `True` exactly when some token has a registered
structural inverse and the immediately following token is that inverse
(its single left-to-right scan of consecutive pairs decides precisely this
predicate). -/
theorem c7_check_inv_iff_adjacent_inverse (names : List String) :
    check_inv names = true ↔
      ∃ i a b, names.get? i = some a ∧ names.get? (i + 1) = some b ∧
        dictGet INVERSE_TOKENS a = some b :=
  check_inv_iff names

/-- C8: every individual returned by a `checkConstraint`-wrapped operator
either satisfies all five structural constraints (length within
`[min_length, max_length]`, height at most `max_depth`, no
inverse-adjacent pair, no nested trig) or is an unmodified copy of one of
the input individuals captured before the wrapped operator ran. -/
theorem c8_checkConstraint_output_valid_or_parent
    (max_length min_length max_depth : Nat) (func : List Ind → List Ind)
    (pick : Nat → List Ind → Ind) (args : List Ind)
    (hpick : ∀ i, pick i args ∈ args) :
    ∀ ind ∈ checkConstraint max_length min_length max_depth func pick args,
      (ind.nodeNames.length ≤ max_length
        ∧ min_length ≤ ind.nodeNames.length
        ∧ ind.height ≤ max_depth
        ∧ check_inv ind.nodeNames = false
        ∧ check_trig ind.nodeNames = false)
      ∨ ind ∈ args := by
  intro ind hmem
  rw [checkConstraint, List.mem_map] at hmem
  obtain ⟨p, _, heq⟩ := hmem
  by_cases h1 : max_length < p.2.nodeNames.length
  · rw [if_pos h1] at heq; exact Or.inr (heq ▸ hpick p.1)
  rw [if_neg h1] at heq
  by_cases h2 : p.2.nodeNames.length < min_length
  · rw [if_pos h2] at heq; exact Or.inr (heq ▸ hpick p.1)
  rw [if_neg h2] at heq
  by_cases h3 : max_depth < p.2.height
  · rw [if_pos h3] at heq; exact Or.inr (heq ▸ hpick p.1)
  rw [if_neg h3] at heq
  cases h4 : check_inv p.2.nodeNames with
  | true => rw [if_pos h4] at heq; exact Or.inr (heq ▸ hpick p.1)
  | false =>
    rw [if_neg (by rw [h4]; exact Bool.false_ne_true)] at heq
    cases h5 : check_trig p.2.nodeNames with
    | true =>
      rw [if_pos h5] at heq; exact Or.inr (heq ▸ hpick p.1)
    | false =>
      rw [if_neg (by rw [h5]; exact Bool.false_ne_true)] at heq
      exact Or.inl (heq ▸
        ⟨Nat.le_of_not_lt h1, Nat.le_of_not_lt h2, Nat.le_of_not_lt h3, h4, h5⟩)

/-- C8 witness: wrapping an operator that returns the invalid individual
`[exp, log]`, the output is the unmodified input individual. -/
theorem c8_witness :
    ((⟨["x1"], 0⟩ : Ind).nodeNames.length ≤ 10
      ∧ 1 ≤ (⟨["x1"], 0⟩ : Ind).nodeNames.length
      ∧ (⟨["x1"], 0⟩ : Ind).height ≤ 5
      ∧ check_inv (⟨["x1"], 0⟩ : Ind).nodeNames = false
      ∧ check_trig (⟨["x1"], 0⟩ : Ind).nodeNames = false)
    ∨ (⟨["x1"], 0⟩ : Ind) ∈ c8Args :=
  c8_checkConstraint_output_valid_or_parent 10 1 5 c8Func c8Pick c8Args
    (fun _ => show (⟨["x1"], 0⟩ : Ind) ∈ c8Args by decide)
    ⟨["x1"], 0⟩ (by decide)

/-- C9: the registered inverse-token map is symmetric: whenever `u` is
registered as the inverse of `t`, `t` is registered as the inverse of
`u`. -/
theorem c9_inverse_map_symmetric (t u : String)
    (h : dictGet INVERSE_TOKENS t = some u) :
    dictGet INVERSE_TOKENS u = some t :=
  inverse_tokens_sym_all (t, u) (dictGet_mem h)

/-- C9 witness: instantiated at the registered pair exp/log. -/
theorem c9_witness :
    dictGet INVERSE_TOKENS "exp" = some "log"
    ∧ dictGet INVERSE_TOKENS "log" = some "exp" :=
  ⟨by decide, c9_inverse_map_symmetric "exp" "log" (by decide)⟩

/-- The balance contribution of one name is at least `-1`. -/
theorem trigDelta_ge (nm : String) : -1 ≤ trigDelta nm := by
  rw [trigDelta]
  by_cases h1 : nm ∈ BINARY_TOKENS
  · rw [if_pos h1]; norm_num
  · rw [if_neg h1]
    by_cases h2 : nm ∉ UNARY_TOKENS
    · rw [if_pos h2]
    · rw [if_neg h2]; norm_num

/-- `sumDelta` over an empty list. -/
theorem sumDelta_nil : sumDelta [] = 0 := rfl

/-- Peeling the head off a take inside `sumDelta`. -/
theorem sumDelta_take_cons (x : String) (l : List String) (k : Nat) :
    sumDelta ((x :: l).take (k + 1)) = trigDelta x + sumDelta (l.take k) := by
  simp [sumDelta]

/-- Trig-position membership shifts under cons. -/
theorem isTrigAt_cons_succ (x : String) (l : List String) (i : Nat) :
    isTrigAt (x :: l) (i + 1) ↔ isTrigAt l i := Iff.rfl

/-- The subtree balance shifts under cons. -/
theorem trigBal_cons_succ (x : String) (l : List String) (i k : Nat) :
    trigBal (x :: l) (i + 1) (k + 1) = trigBal l i k := by
  rw [trigBal, trigBal, List.drop_succ_cons, Nat.succ_sub_succ]

/-- The subtree balance of the head token, one position in. -/
theorem trigBal_zero_succ (x : String) (l : List String) (k : Nat) :
    trigBal (x :: l) 0 (k + 1) = 1 + sumDelta (l.take k) := by
  rw [trigBal, List.drop_succ_cons, List.drop_zero, Nat.succ_sub_succ,
    Nat.sub_zero]

/-- Openness shifts under cons. -/
theorem trigOpenUpTo_cons_succ (x : String) (l : List String) (i j : Nat) :
    trigOpenUpTo (x :: l) (i + 1) (j + 1) ↔ trigOpenUpTo l i j := by
  constructor
  · intro h k hik hkj
    have := h (k + 1) (by omega) (by omega)
    rwa [trigBal_cons_succ] at this
  · intro h k hik hkj
    cases k with
    | zero => omega
    | succ m =>
      rw [trigBal_cons_succ]
      exact h m (by omega) (by omega)

/-- A nested-trig violation survives prepending a token. -/
theorem specNestedTrig_cons (x : String) (l : List String)
    (h : specNestedTrig l) : specNestedTrig (x :: l) := by
  obtain ⟨i, j, hij, hti, htj, hopen⟩ := h
  exact ⟨i + 1, j + 1, by omega, (isTrigAt_cons_succ x l i).mpr hti,
    (isTrigAt_cons_succ x l j).mpr htj,
    (trigOpenUpTo_cons_succ x l i j).mpr hopen⟩

/-- A nested-trig violation with a non-trig head restricts to the tail. -/
theorem specNestedTrig_cons_elim (nm : String) (rest : List String)
    (ht : nm ∉ TRIG_TOKENS) (hnot : ¬ specNestedTrig rest) :
    ¬ specNestedTrig (nm :: rest) := by
  rintro ⟨i, j, hij, hti, htj, hopen⟩
  cases i with
  | zero =>
    obtain ⟨a, ha, hat⟩ := hti
    cases ha
    exact ht hat
  | succ mi =>
    cases j with
    | zero => omega
    | succ mj =>
      exact hnot ⟨mi, mj, by omega, (isTrigAt_cons_succ nm rest mi).mp hti,
        (isTrigAt_cons_succ nm rest mj).mp htj,
        (trigOpenUpTo_cons_succ nm rest mi mj).mp hopen⟩

/-- Completeness of the `check_trig` scanner: a `True` result comes either
from a trig token hit while the tracked subtree (balance `td`) is open, or
from a nested-trig violation inside the remaining list. -/
theorem check_trig_go_true (l : List String) :
    ∀ (desc : Bool) (td : Int), (desc = true → 0 < td) →
      check_trig_go l desc td = true →
      (desc = true ∧ OpenHits l td) ∨ specNestedTrig l := by
  induction l with
  | nil =>
    intro desc td _ h
    rw [check_trig_go] at h
    exact absurd h (by simp)
  | cons nm rest ih =>
    intro desc td hd h
    rw [check_trig_go] at h
    by_cases ht : nm ∈ TRIG_TOKENS
    · rw [if_pos ht] at h
      cases desc with
      | true =>
        left
        refine ⟨rfl, 0, nm, rfl, ht, ?_⟩
        intro k hk
        have hk0 : k = 0 := Nat.le_zero.mp hk
        subst hk0
        simpa [sumDelta] using hd rfl
      | false =>
        right
        rcases ih true 1 (fun _ => one_pos) h with ⟨_, hopen⟩ | hspec
        · obtain ⟨j, a, hj, hat, hbal⟩ := hopen
          refine ⟨0, j + 1, by omega, ⟨nm, rfl, ht⟩, ⟨a, hj, hat⟩, ?_⟩
          intro k hk0 hkj
          cases k with
          | zero => omega
          | succ m =>
            rw [trigBal_zero_succ]
            exact hbal m (by omega)
        · exact specNestedTrig_cons nm rest hspec
    · rw [if_neg ht] at h
      cases desc with
      | true =>
        replace h : (if td + trigDelta nm = 0
            then check_trig_go rest false (td + trigDelta nm)
            else check_trig_go rest true (td + trigDelta nm)) = true := h
        by_cases h0 : td + trigDelta nm = 0
        · rw [if_pos h0] at h
          rcases ih false (td + trigDelta nm) (by simp) h with ⟨hf, _⟩ | hspec
          · exact absurd hf (by simp)
          · exact Or.inr (specNestedTrig_cons nm rest hspec)
        · rw [if_neg h0] at h
          have htdpos : 0 < td + trigDelta nm := by
            have h1 := hd rfl
            have h2 := trigDelta_ge nm
            omega
          rcases ih true (td + trigDelta nm) (fun _ => htdpos) h with
            ⟨_, hopen⟩ | hspec
          · left
            refine ⟨rfl, ?_⟩
            obtain ⟨j, a, hj, hat, hbal⟩ := hopen
            refine ⟨j + 1, a, hj, hat, ?_⟩
            intro k hk
            cases k with
            | zero => simpa [sumDelta] using hd rfl
            | succ m =>
              rw [sumDelta_take_cons]
              have := hbal m (by omega)
              omega
          · exact Or.inr (specNestedTrig_cons nm rest hspec)
      | false =>
        rcases ih false td (by simp) h with ⟨hf, _⟩ | hspec
        · exact absurd hf (by simp)
        · exact Or.inr (specNestedTrig_cons nm rest hspec)

/-- Soundness of the `check_trig` scanner: a `False` result means no
nested-trig violation, and (when a trig subtree with balance `td` is being
tracked) no trig token reachable while it stays open. -/
theorem check_trig_go_false (l : List String) :
    ∀ (desc : Bool) (td : Int),
      check_trig_go l desc td = false →
      ¬ specNestedTrig l ∧ (desc = true → ¬ OpenHits l td) := by
  induction l with
  | nil =>
    intro desc td _
    constructor
    · rintro ⟨i, j, hij, ⟨a, ha, _⟩, _, _⟩
      simp at ha
    · rintro _ ⟨j, a, hj, _, _⟩
      simp at hj
  | cons nm rest ih =>
    intro desc td h
    rw [check_trig_go] at h
    by_cases ht : nm ∈ TRIG_TOKENS
    · rw [if_pos ht] at h
      cases desc with
      | true => exact absurd h (by simp)
      | false =>
        obtain ⟨hnot, hopen1⟩ := ih true 1 h
        constructor
        · rintro ⟨i, j, hij, hti, htj, hopenij⟩
          cases i with
          | zero =>
            cases j with
            | zero => omega
            | succ m =>
              apply hopen1 rfl
              obtain ⟨a, ha, hat⟩ := htj
              refine ⟨m, a, ha, hat, ?_⟩
              intro k hk
              have := hopenij (k + 1) (by omega) (by omega)
              rwa [trigBal_zero_succ] at this
          | succ mi =>
            cases j with
            | zero => omega
            | succ mj =>
              exact hnot ⟨mi, mj, by omega,
                (isTrigAt_cons_succ nm rest mi).mp hti,
                (isTrigAt_cons_succ nm rest mj).mp htj,
                (trigOpenUpTo_cons_succ nm rest mi mj).mp hopenij⟩
        · intro hdesc
          exact absurd hdesc (by simp)
    · rw [if_neg ht] at h
      cases desc with
      | true =>
        replace h : (if td + trigDelta nm = 0
            then check_trig_go rest false (td + trigDelta nm)
            else check_trig_go rest true (td + trigDelta nm)) = false := h
        by_cases h0 : td + trigDelta nm = 0
        · rw [if_pos h0] at h
          obtain ⟨hnot, _⟩ := ih false (td + trigDelta nm) h
          refine ⟨specNestedTrig_cons_elim nm rest ht hnot, ?_⟩
          rintro _ ⟨j, a, hj, hat, hbal⟩
          cases j with
          | zero => cases hj; exact ht hat
          | succ m =>
            have h1 := hbal 1 (by omega)
            rw [sumDelta_take_cons] at h1
            simp [sumDelta] at h1
            omega
        · rw [if_neg h0] at h
          obtain ⟨hnot, hopen'⟩ := ih true (td + trigDelta nm) h
          refine ⟨specNestedTrig_cons_elim nm rest ht hnot, ?_⟩
          rintro _ ⟨j, a, hj, hat, hbal⟩
          cases j with
          | zero => cases hj; exact ht hat
          | succ m =>
            apply hopen' rfl
            refine ⟨m, a, hj, hat, ?_⟩
            intro k hk
            have := hbal (k + 1) (by omega)
            rw [sumDelta_take_cons] at this
            omega
      | false =>
        obtain ⟨hnot, _⟩ := ih false td h
        refine ⟨specNestedTrig_cons_elim nm rest ht hnot, ?_⟩
        intro hdesc
        exact absurd hdesc (by simp)

/-- C6: `check_trig` returns `True` for a name sequence iff some trig token
occurs while the subtree of an earlier trig token is still open (its local
arity balance has not returned to zero); in particular `[sin, sin, x1]` is
rejected, and since the characterization is exact, a trig token appearing
only after every earlier trig subtree has closed is not a violation. -/
theorem c6_check_trig_iff_nested_open_trig :
    (∀ names : List String, check_trig names = true ↔ specNestedTrig names)
    ∧ check_trig ["sin", "sin", "x1"] = true := by
  constructor
  · intro names
    constructor
    · intro h
      rcases check_trig_go_true names false 0 (by simp) h with ⟨hf, _⟩ | hspec
      · exact absurd hf (by simp)
      · exact hspec
    · intro hspec
      cases hres : check_trig names with
      | true => rfl
      | false => exact absurd hspec (check_trig_go_false names false 0 hres).1
  · decide

/-- C10: `neg` and `inv` are registered as their own structural inverses;
the name sequence `[neg, neg]` is rejected by `check_inv`; and in the prior
mask over `stdLib` (where `neg` is token 7), the position immediately after
a `neg` masks `neg` itself. -/
theorem c10_self_inverse_tokens :
    dictGet INVERSE_TOKENS "neg" = some "neg"
    ∧ dictGet INVERSE_TOKENS "inv" = some "inv"
    ∧ check_inv ["neg", "neg"] = true
    ∧ generate_priors stdLib [7, 0] 10 1 1 7 = true := by
  decide

/-- `nameIndex` finds the position of the `t`-th name in a duplicate-free
name list. -/
theorem nameIndex_get_of_nodup : ∀ (names : List String), names.Nodup →
    ∀ (t : Nat) (h : t < names.length),
      nameIndex names (names.get ⟨t, h⟩) = some t := by
  intro names
  induction names with
  | nil => intro _ t h; simp at h
  | cons x rest ih =>
    intro hnd t h
    obtain ⟨hx, hrest⟩ := List.nodup_cons.mp hnd
    cases t with
    | zero => simp [nameIndex]
    | succ m =>
      have hm : m < rest.length := by simpa using h
      have hget : (x :: rest).get ⟨m + 1, h⟩ = rest.get ⟨m, hm⟩ := rfl
      rw [hget, nameIndex,
        if_neg (fun he => hx (by rw [he]; exact List.get_mem rest m hm)),
        ih hrest m hm]
      rfl

/-- Every registered inverse name is nonempty. -/
theorem inverse_values_nonempty : ∀ p ∈ INVERSE_TOKENS, p.2 ≠ "" := by decide

/-- `stdLib`'s names of library arity 2 are exactly the binary token names. -/
theorem stdLib_binary_coherent :
    ∀ t, (stdLib.nameOf t ∈ BINARY_TOKENS) ↔ stdLib.arity t = 2 := by
  intro t
  by_cases h : t < 9
  · interval_cases t <;> decide
  · have hl1 : stdLib.libNames.length ≤ t := by simp [stdLib]; omega
    have hl2 : stdLib.libArities.length ≤ t := by simp [stdLib]; omega
    rw [Lib.nameOf, Lib.arity, List.getD_eq_default _ _ hl1,
      List.getD_eq_default _ _ hl2]
    decide

/-- `stdLib`'s names of library arity 1 are exactly the unary token names. -/
theorem stdLib_unary_coherent :
    ∀ t, (stdLib.nameOf t ∈ UNARY_TOKENS) ↔ stdLib.arity t = 1 := by
  intro t
  by_cases h : t < 9
  · interval_cases t <;> decide
  · have hl1 : stdLib.libNames.length ≤ t := by simp [stdLib]; omega
    have hl2 : stdLib.libArities.length ≤ t := by simp [stdLib]; omega
    rw [Lib.nameOf, Lib.arity, List.getD_eq_default _ _ hl1,
      List.getD_eq_default _ _ hl2]
    decide

/-- The name-level balance contribution agrees with the arity-level one
used by `generate_priors`, given the category/arity coherence of the
library. -/
theorem trigDelta_eq_arity (lib : Lib) (t : Nat)
    (hB : (lib.nameOf t ∈ BINARY_TOKENS) ↔ lib.arity t = 2)
    (hU : (lib.nameOf t ∈ UNARY_TOKENS) ↔ lib.arity t = 1) :
    trigDelta (lib.nameOf t)
      = if lib.arity t = 2 then 1 else if lib.arity t ≠ 1 then -1 else 0 := by
  rw [trigDelta]
  by_cases h2 : lib.arity t = 2
  · rw [if_pos (hB.mpr h2), if_pos h2]
  · rw [if_neg (fun hm => h2 (hB.mp hm)), if_neg h2]
    by_cases h1 : lib.arity t = 1
    · rw [if_neg (not_not_intro (hU.mpr h1)), if_neg (fun hne => hne h1)]
    · rw [if_pos (fun hm => h1 (hU.mp hm)), if_pos h1]

/-- `trigStep` on a trig token. -/
theorem trigStep_trig (lib : Lib) (t : Nat) (desc : Bool) (td : Int)
    (ht : lib.isTrig t = true) : trigStep lib t desc td = (true, 1) := by
  simp only [trigStep]
  rw [ht, if_pos rfl]

/-- `trigStep` on a non-trig token outside any trig subtree. -/
theorem trigStep_not_trig_false (lib : Lib) (t : Nat) (td : Int)
    (ht : lib.isTrig t = false) : trigStep lib t false td = (false, td) := by
  simp only [trigStep]
  rw [ht, if_neg Bool.false_ne_true, if_neg Bool.false_ne_true]

/-- `trigStep` on a non-trig token inside a trig subtree updates the balance
by the name-level contribution and closes the subtree exactly when the
balance reaches zero. -/
theorem trigStep_not_trig_true (lib : Lib) (t : Nat) (td : Int)
    (hB : (lib.nameOf t ∈ BINARY_TOKENS) ↔ lib.arity t = 2)
    (hU : (lib.nameOf t ∈ UNARY_TOKENS) ↔ lib.arity t = 1)
    (ht : lib.isTrig t = false) :
    trigStep lib t true td
      = (if td + trigDelta (lib.nameOf t) = 0 then false else true,
         td + trigDelta (lib.nameOf t)) := by
  have harith : (if lib.arity t = 2 then td + 1
      else if lib.arity t ≠ 1 then td - 1 else td)
      = td + trigDelta (lib.nameOf t) := by
    rw [trigDelta_eq_arity lib t hB hU]
    by_cases h2 : lib.arity t = 2
    · rw [if_pos h2, if_pos h2]
    · rw [if_neg h2, if_neg h2]
      by_cases h1 : lib.arity t ≠ 1
      · rw [if_pos h1, if_pos h1]; ring
      · rw [if_neg h1, if_neg h1]; ring
  simp only [trigStep]
  rw [ht, if_neg Bool.false_ne_true, if_pos trivial]
  show (if (if lib.arity t = 2 then td + 1
            else if lib.arity t ≠ 1 then td - 1 else td) = 0
        then (false, if lib.arity t = 2 then td + 1
            else if lib.arity t ≠ 1 then td - 1 else td)
        else (true, if lib.arity t = 2 then td + 1
            else if lib.arity t ≠ 1 then td - 1 else td))
      = (if td + trigDelta (lib.nameOf t) = 0 then false else true,
         td + trigDelta (lib.nameOf t))
  rw [harith]
  split <;> rfl

/-- Characterization of the rows emitted by the `generate_priors` loop: as
long as the guard `i < n - 1` holds at the corresponding iteration, the `m`-th
emitted row is the `rowMask` of the token at relative position `m` with some
intermediate state. -/
theorem gpRows_get_row (lib : Lib) (maxLen minLen n : Nat) :
    ∀ (l : List Nat) (i : Nat) (desc : Bool) (td dang : Int) (m t' : Nat),
      l.get? m = some t' → i + m < n - 1 →
      ∃ desc' dang',
        (gpRows lib maxLen minLen n l i desc td dang).get? m
          = some (rowMask lib maxLen minLen (i + m) t' desc' dang') := by
  intro l
  induction l with
  | nil => intro i desc td dang m t' hm _; simp at hm
  | cons t rest ih =>
    intro i desc td dang m t' hm hlt
    have hi : i < n - 1 := by omega
    simp only [gpRows, if_pos hi]
    cases m with
    | zero =>
      cases hm
      exact ⟨(trigStep lib t desc td).1, dang + (lib.arity t : Int) - 1,
        by rw [Nat.add_zero]; rfl⟩
    | succ m' =>
      simp only [List.get?_cons_succ]
      obtain ⟨desc', dang', hrow⟩ := ih (i + 1) (trigStep lib t desc td).1
        (trigStep lib t desc td).2 (dang + (lib.arity t : Int) - 1) m' t'
        hm (by omega)
      have harith : i + 1 + m' = i + (m' + 1) := by omega
      rw [harith] at hrow
      exact ⟨desc', dang', hrow⟩

/-- Core invariant for the prior/validator trig consistency: if every token
of `l` (at relative position `m + 1`) is unmasked in the row the
`generate_priors` loop emits for it, and the head of `l` is not trig
whenever the loop's trig state is currently open, then the name-level
`check_trig` scan of `l` started in the same state reports no violation. -/
theorem gp_trig_core (lib : Lib)
    (hB : ∀ t, (lib.nameOf t ∈ BINARY_TOKENS) ↔ lib.arity t = 2)
    (hU : ∀ t, (lib.nameOf t ∈ UNARY_TOKENS) ↔ lib.arity t = 1)
    (maxLen minLen n : Nat) :
    ∀ (l : List Nat) (i : Nat) (desc : Bool) (td dang : Int),
      i + l.length = n →
      (∀ m tk, l.get? (m + 1) = some tk →
        ∀ row, (gpRows lib maxLen minLen n l i desc td dang).get? m = some row →
          row tk = false) →
      (desc = true → ∀ t0, l.get? 0 = some t0 → lib.isTrig t0 = false) →
      check_trig_go (l.map lib.nameOf) desc td = false := by
  intro l
  induction l with
  | nil => intro i desc td dang _ _ _; rfl
  | cons t rest ih =>
    intro i desc td dang hlen hrows hhead
    simp only [List.length_cons] at hlen
    by_cases hi : i < n - 1
    case neg =>
      have hr0 : rest = [] := by
        have : rest.length = 0 := by omega
        exact List.eq_nil_of_length_eq_zero this
      subst hr0
      simp only [List.map_cons, List.map_nil]
      rw [check_trig_go]
      by_cases ht : lib.nameOf t ∈ TRIG_TOKENS
      · rw [if_pos ht]
        cases desc with
        | true =>
          have hc := hhead rfl t rfl
          simp [Lib.isTrig, ht] at hc
        | false => rfl
      · rw [if_neg ht]
        cases desc with
        | true =>
          replace hhead := hhead  -- keep context
          show (if td + trigDelta (lib.nameOf t) = 0
                then check_trig_go [] false (td + trigDelta (lib.nameOf t))
                else check_trig_go [] true (td + trigDelta (lib.nameOf t)))
              = false
          split <;> rfl
        | false => rfl
    case pos =>
      have hlen' : (i + 1) + rest.length = n := by omega
      have hrowseq : gpRows lib maxLen minLen n (t :: rest) i desc td dang
          = rowMask lib maxLen minLen i t (trigStep lib t desc td).1
              (dang + (lib.arity t : Int) - 1)
            :: gpRows lib maxLen minLen n rest (i + 1) (trigStep lib t desc td).1
                (trigStep lib t desc td).2 (dang + (lib.arity t : Int) - 1) := by
        simp only [gpRows, if_pos hi]
      have hrows2 : ∀ m tk, rest.get? (m + 1) = some tk →
          ∀ row, (gpRows lib maxLen minLen n rest (i + 1)
              (trigStep lib t desc td).1 (trigStep lib t desc td).2
              (dang + (lib.arity t : Int) - 1)).get? m = some row →
            row tk = false := by
        intro m tk hm row hg
        exact hrows (m + 1) tk hm row (by rw [hrowseq]; simpa using hg)
      have hnext : (trigStep lib t desc td).1 = true →
          ∀ t1, rest.get? 0 = some t1 → lib.isTrig t1 = false := by
        intro hd1 t1 ht1
        have hr := hrows 0 t1 ht1
          (rowMask lib maxLen minLen i t (trigStep lib t desc td).1
            (dang + (lib.arity t : Int) - 1)) (by rw [hrowseq]; rfl)
        simp only [rowMask] at hr
        rw [hd1] at hr
        cases hisTrig : lib.isTrig t1 with
        | false => rfl
        | true => rw [hisTrig] at hr; simp at hr
      simp only [List.map_cons]
      rw [check_trig_go]
      by_cases ht : lib.nameOf t ∈ TRIG_TOKENS
      · rw [if_pos ht]
        have htb : lib.isTrig t = true := by simp [Lib.isTrig, ht]
        cases desc with
        | true =>
          have hc := hhead rfl t rfl
          rw [htb] at hc
          simp at hc
        | false =>
          have hstep : trigStep lib t false td = (true, 1) :=
            trigStep_trig lib t false td htb
          rw [hstep] at hrows2 hnext
          show check_trig_go (rest.map lib.nameOf) true 1 = false
          exact ih (i + 1) true 1 (dang + (lib.arity t : Int) - 1) hlen'
            hrows2 hnext
      · rw [if_neg ht]
        have htb : lib.isTrig t = false := by simp [Lib.isTrig, ht]
        cases desc with
        | false =>
          have hstep : trigStep lib t false td = (false, td) :=
            trigStep_not_trig_false lib t td htb
          rw [hstep] at hrows2
          show check_trig_go (rest.map lib.nameOf) false td = false
          exact ih (i + 1) false td (dang + (lib.arity t : Int) - 1) hlen'
            hrows2 (fun hcon => absurd hcon (by simp))
        | true =>
          have hstep := trigStep_not_trig_true lib t td (hB t) (hU t) htb
          show (if td + trigDelta (lib.nameOf t) = 0
                then check_trig_go (rest.map lib.nameOf) false
                  (td + trigDelta (lib.nameOf t))
                else check_trig_go (rest.map lib.nameOf) true
                  (td + trigDelta (lib.nameOf t)))
              = false
          by_cases h0 : td + trigDelta (lib.nameOf t) = 0
          · rw [if_pos h0]
            have hstep0 : trigStep lib t true td
                = (false, td + trigDelta (lib.nameOf t)) := by
              rw [hstep, if_pos h0]
            rw [hstep0] at hrows2
            exact ih (i + 1) false (td + trigDelta (lib.nameOf t))
              (dang + (lib.arity t : Int) - 1) hlen' hrows2
              (fun hcon => absurd hcon (by simp))
          · rw [if_neg h0]
            have hstep1 : trigStep lib t true td
                = (true, td + trigDelta (lib.nameOf t)) := by
              rw [hstep, if_neg h0]
            rw [hstep1] at hrows2 hnext
            exact ih (i + 1) true (td + trigDelta (lib.nameOf t))
              (dang + (lib.arity t : Int) - 1) hlen' hrows2 hnext

/-- C3 (amended): every token sequence built by choosing, at each position,
only tokens whose `generate_priors` mask entry is not `-inf` passes the
structural validity checks — its name sequence contains no token immediately
followed by its registered inverse and no trig token nested beneath another
trig token.  (The converse direction of the original claim is refuted by
`c3_counterexample_valid_sequence_masked`.)  The hypotheses on `lib` are the
spec's Library invariants: unique names and derived category sets consistent
with the name-level category lists. -/
theorem c3_priors_admit_only_valid_sequences (lib : Lib) (maxLen minLen : Nat)
    (tokens : List Nat)
    (hB : ∀ t, (lib.nameOf t ∈ BINARY_TOKENS) ↔ lib.arity t = 2)
    (hU : ∀ t, (lib.nameOf t ∈ UNARY_TOKENS) ↔ lib.arity t = 1)
    (hnd : lib.libNames.Nodup)
    (hchoice : ∀ j tk, tokens.get? j = some tk →
      generate_priors lib tokens maxLen minLen j tk = false) :
    check_inv (tokens.map lib.nameOf) = false
    ∧ check_trig (tokens.map lib.nameOf) = false := by
  constructor
  · cases hci : check_inv (tokens.map lib.nameOf) with
    | false => rfl
    | true =>
      exfalso
      obtain ⟨ip, a, b, ha, hb, hab⟩ := (check_inv_iff _).mp hci
      rw [List.get?_map] at ha hb
      obtain ⟨ta, hta, rfl⟩ := Option.map_eq_some'.mp ha
      obtain ⟨tb, htb, rfl⟩ := Option.map_eq_some'.mp hb
      have hbne : lib.nameOf tb ≠ "" :=
        inverse_values_nonempty (lib.nameOf ta, lib.nameOf tb) (dictGet_mem hab)
      have htblt : tb < lib.libNames.length := by
        by_contra hge
        exact hbne (List.getD_eq_default _ _ (Nat.le_of_not_lt hge))
      have hinv : lib.invIdx ta = some tb := by
        rw [Lib.invIdx, hab]
        have hname : lib.nameOf tb = lib.libNames.get ⟨tb, htblt⟩ := by
          rw [Lib.nameOf, List.getD_eq_get?, List.get?_eq_get htblt]
          rfl
        rw [hname]
        show nameIndex lib.libNames (lib.libNames.get ⟨tb, htblt⟩) = some tb
        exact nameIndex_get_of_nodup lib.libNames hnd tb htblt
      have hiplt : ip + 1 < tokens.length := by
        by_contra hge
        rw [List.get?_eq_none.mpr (Nat.le_of_not_lt hge)] at htb
        simp at htb
      obtain ⟨desc', dang', hrow⟩ := gpRows_get_row lib maxLen minLen
        tokens.length tokens 0 false 0 1 ip ta hta (by omega)
      have hmask : rowMask lib maxLen minLen (0 + ip) ta desc' dang' tb
          = false := by
        have h1 := hchoice (ip + 1) tb htb
        simp only [generate_priors] at h1
        rw [if_neg (Nat.succ_ne_zero ip)] at h1
        simp only [Nat.add_sub_cancel] at h1
        rw [hrow] at h1
        exact h1
      simp only [rowMask] at hmask
      rw [hinv] at hmask
      simp at hmask
  · show check_trig_go (tokens.map lib.nameOf) false 0 = false
    apply gp_trig_core lib hB hU maxLen minLen tokens.length tokens 0 false 0 1
      (Nat.zero_add _)
    · intro m tk hm row hg
      have h1 := hchoice (m + 1) tk hm
      simp only [generate_priors] at h1
      rw [if_neg (Nat.succ_ne_zero m)] at h1
      simp only [Nat.add_sub_cancel] at h1
      rw [hg] at h1
      exact h1
    · intro hcon
      exact absurd hcon (by simp)

/-- C3 counterexample: the claim's converse direction fails.  The sequence
`[x1]` (token 0 of `stdLib`) passes `check_inv` and `check_trig`, yet it is
not permitted end-to-end by the priors: row 0 of `generate_priors` masks
every terminal token, `x1` included. -/
theorem c3_counterexample_valid_sequence_masked :
    check_inv ([0].map stdLib.nameOf) = false
    ∧ check_trig ([0].map stdLib.nameOf) = false
    ∧ generate_priors stdLib [0] 10 1 0 0 = true := by
  decide

/-- C3 witness: the sequence `[add, x1, x1]` over `stdLib` respects every
mask entry of its `generate_priors` matrix and passes both validity
checks. -/
theorem c3_witness :
    check_inv ([1, 0, 0].map stdLib.nameOf) = false
    ∧ check_trig ([1, 0, 0].map stdLib.nameOf) = false :=
  c3_priors_admit_only_valid_sequences stdLib 10 1 [1, 0, 0]
    stdLib_binary_coherent stdLib_unary_coherent (by decide)
    (by
      intro j tk hj
      have hlt : j < 3 := by
        by_contra hge
        rw [List.get?_eq_none.mpr (by simpa using Nat.le_of_not_lt hge)] at hj
        simp at hj
      interval_cases j <;> (cases hj; decide))
